import Mathlib

/-!
Shallow embedding of the Pixel Physics Racer source (src/game.js).

The repository holds two near-duplicate variants of the game: a rolling-ball
variant and a wheeled-car variant. Both are modelled here.

Numeric modelling: the JavaScript program computes with IEEE doubles, and
every double is a rational number, so the control-flow and state-management
layer (chunk streaming, drive gating, fall reset) is modelled over the
rationals.  Terrain heights are produced by the trigonometric heightfield
getTerrainHeight; since no control-flow decision of the streamer depends on a
height value, the streamer model abstracts the height function as an
arbitrary rational-valued function, while the heightfield itself is modelled
separately over the reals for the analytic claims.
-/

/-! ## Configuration constants (src/game.js, ball variant lines 7-17;
car variant lines 293-301) -/

/-- CONFIG.chunkWidth of the ball variant (line 9). -/
def chunkWidth : ℚ := 1000

/-- CONFIG.ballSpeed, the maximum rolling speed cap (line 14, value 0.4). -/
def ballSpeed : ℚ := 2/5

/-- CONFIG.ballTorque, the per-step motor torque (line 15, value 0.5). -/
def ballTorque : ℚ := 1/2

/-- CONFIG.chunkWidth of the car variant (line 296). -/
def carChunkWidth : ℚ := 800

/-- CONFIG.carSpeed, the wheel angular-velocity target (line 299, value 0.05). -/
def carSpeed : ℚ := 1/20

/-- The distance between consecutive terrain samples; the local constant
segmentWidth of generateTerrainChunk (line 97 and line 393, value 20). -/
def segmentWidth : ℚ := 20

/-- The fall-reset threshold on position.y (lines 186 and 516, value 2000). -/
def fallThreshold : ℚ := 2000

/-! ## Bodies -/

/-- A two-dimensional vector, as used for positions and velocities. -/
structure Vec2 where
  x : ℚ
  y : ℚ
deriving DecidableEq, Repr

/-- The state of the rolling-ball player body (playerBody): the Matter.js
body fields read or written by the game code. -/
structure BallBody where
  position : Vec2
  velocity : Vec2
  angularVelocity : ℚ
  torque : ℚ
deriving DecidableEq, Repr

/-- The drive step of the ball variant (updateGame lines 165-167): when the
angular velocity is below the speed cap, set the torque field to ballTorque;
otherwise leave the body untouched.  Matter.js zeroes the torque accumulator
after each integration step, so on entry to the callback the torque field is
0 and the torque applied during the step is exactly the field value on exit. -/
def ballDrive (b : BallBody) : BallBody :=
  if b.angularVelocity < ballSpeed then { b with torque := ballTorque } else b

/-- The fall reset of the ball variant (updateGame lines 186-190): when
position.y exceeds the threshold, keep the x coordinate, move y to 0, and
zero the linear and angular velocity. -/
def ballCheckFallAndReset (b : BallBody) : BallBody :=
  if b.position.y > fallThreshold then
    { b with
        position := { x := b.position.x, y := 0 }
        velocity := { x := 0, y := 0 }
        angularVelocity := 0 }
  else b

/-- The state of one car wheel body (carWheelB or carWheelF). -/
structure CarWheel where
  position : Vec2
  velocity : Vec2
  angularVelocity : ℚ
deriving DecidableEq, Repr

/-- The state of the car chassis body (carBody.bodies[0]). -/
structure CarChassis where
  position : Vec2
  velocity : Vec2
  angularVelocity : ℚ
deriving DecidableEq, Repr

/-- The state of the car composite: chassis plus both wheels. -/
structure CarState where
  chassis : CarChassis
  wheelB : CarWheel
  wheelF : CarWheel
deriving DecidableEq, Repr

/-- The drive step of the car variant (updateGame lines 490-491): directly
assign the constant carSpeed to both wheels' angularVelocity field.  Nothing
else is touched; in particular the wheels' linear velocities are not read,
clamped or written. -/
def carDrive (c : CarState) : CarState :=
  { c with
      wheelB := { c.wheelB with angularVelocity := carSpeed }
      wheelF := { c.wheelF with angularVelocity := carSpeed } }

/-- The squared magnitude of a wheel's linear velocity.  Matter.js exposes
the magnitude itself (body.speed) as the square root of this quantity, so a
linear speed bound is equivalent to a bound on this square. -/
def wheelSpeedSq (w : CarWheel) : ℚ := w.velocity.x ^ 2 + w.velocity.y ^ 2

/-- The fall reset of the car variant (updateGame lines 516-523): when the
chassis position.y exceeds the threshold, move the chassis to (currentX, 0),
zero the chassis linear and angular velocity, and set the wheel positions to
(currentX - 20, 20) and (currentX + 20, 20).  Matter.js Body.setPosition
leaves the body's velocity unchanged, and no velocity call is issued for the
wheels, so the wheels keep their linear and angular velocities. -/
def carCheckFallAndReset (c : CarState) : CarState :=
  if c.chassis.position.y > fallThreshold then
    let chassisR : CarChassis :=
      { position := { x := c.chassis.position.x, y := 0 }
        velocity := { x := 0, y := 0 }
        angularVelocity := 0 }
    { chassis := chassisR
      wheelB := { c.wheelB with position := { x := chassisR.position.x - 20, y := 20 } }
      wheelF := { c.wheelF with position := { x := chassisR.position.x + 20, y := 20 } } }
  else c

/-! ## Claims about the vehicle rigs -/

/-- C4: in the rolling-ball drive step, entering with a zeroed torque
accumulator, a forward torque of ballTorque is applied exactly when the
angular velocity is strictly below the cap ballSpeed (0.4); at or above the
cap no torque is applied; and the drive never modifies position, velocity or
angular velocity, so the cap gates torque and never clamps the velocity. -/
theorem ballDrive_torque_gate (b : BallBody) (h0 : b.torque = 0) :
    ((ballDrive b).position = b.position ∧
      (ballDrive b).velocity = b.velocity ∧
      (ballDrive b).angularVelocity = b.angularVelocity) ∧
    (b.angularVelocity < ballSpeed → (ballDrive b).torque = ballTorque) ∧
    (ballSpeed ≤ b.angularVelocity → (ballDrive b).torque = 0) := by
  unfold ballDrive
  by_cases hlt : b.angularVelocity < ballSpeed
  · simp [hlt]
  · simp [hlt, h0]

/-- A ball pushed past the 0.4 cap by an external force, at 0.45. -/
def ballAboveCap : BallBody := ⟨⟨0, 0⟩, ⟨0, 0⟩, 9/20, 0⟩

/-- A ball rolling below the cap, at 0.3. -/
def ballBelowCap : BallBody := ⟨⟨0, 0⟩, ⟨0, 0⟩, 3/10, 0⟩

/-- Witness for ballDrive_torque_gate: a ball at angular velocity 0.45
(pushed past the 0.4 cap by an external force) receives zero torque, and a
ball at angular velocity 0.3 receives the full ballTorque. -/
theorem ballDrive_torque_gate_witness :
    (ballDrive ballAboveCap).torque = 0 ∧
    (ballDrive ballBelowCap).torque = ballTorque := by
  constructor
  · exact (ballDrive_torque_gate ballAboveCap rfl).2.2 (by norm_num [ballSpeed, ballAboveCap])
  · exact (ballDrive_torque_gate ballBelowCap rfl).2.1 (by norm_num [ballSpeed, ballBelowCap])

/-- C7: the rolling-ball fall reset changes the body state exactly when
position.y exceeds the threshold 2000; when it fires it moves the position
to (currentX, 0), preserving the horizontal coordinate, and zeroes linear
and angular velocity; otherwise the body is returned unchanged. -/
theorem ballReset_iff_threshold (b : BallBody) :
    (ballCheckFallAndReset b ≠ b ↔ b.position.y > fallThreshold) ∧
    (b.position.y > fallThreshold →
      (ballCheckFallAndReset b).position = ⟨b.position.x, 0⟩ ∧
      (ballCheckFallAndReset b).velocity = ⟨0, 0⟩ ∧
      (ballCheckFallAndReset b).angularVelocity = 0 ∧
      (ballCheckFallAndReset b).torque = b.torque) ∧
    (¬ b.position.y > fallThreshold → ballCheckFallAndReset b = b) := by
  by_cases hy : b.position.y > fallThreshold
  · have hres : ballCheckFallAndReset b =
        { b with position := ⟨b.position.x, 0⟩, velocity := ⟨0, 0⟩, angularVelocity := 0 } := by
      simp [ballCheckFallAndReset, hy]
    have hzero : (ballCheckFallAndReset b).position.y = 0 := by rw [hres]
    refine ⟨⟨fun _ => hy, fun _ => ?_⟩, fun _ => by simp [hres], fun hno => absurd hy hno⟩
    intro hEq
    rw [hEq] at hzero
    have hpos : (0 : ℚ) < b.position.y := lt_trans (by norm_num [fallThreshold]) hy
    exact hpos.ne' hzero
  · have hres : ballCheckFallAndReset b = b := by simp [ballCheckFallAndReset, hy]
    exact ⟨⟨fun hne => absurd hres hne, fun hgt => absurd hgt hy⟩,
      fun hgt => absurd hgt hy, fun _ => hres⟩

/-- A ball that fell through the world, at y = 2500, with nonzero velocities. -/
def ballFallen : BallBody := ⟨⟨7, 2500⟩, ⟨3, 4⟩, 5, 0⟩

/-- Witness for ballReset_iff_threshold: a ball that fell to y = 2500 with
nonzero velocities is reset to (7, 0) with zero velocities. -/
theorem ballReset_iff_threshold_witness :
    (ballCheckFallAndReset ballFallen).position = ⟨7, 0⟩ ∧
    (ballCheckFallAndReset ballFallen).velocity = ⟨0, 0⟩ ∧
    (ballCheckFallAndReset ballFallen).angularVelocity = 0 ∧
    (ballCheckFallAndReset ballFallen).torque = 0 :=
  (ballReset_iff_threshold ballFallen).2.1 (by norm_num [fallThreshold, ballFallen])

/-- C5 counterexample: the car drive has no linear-speed clamp.  There is no
bound M such that after carDrive runs every reachable wheel linear speed is
at most M: the drive only assigns wheel angular velocities and never touches
linear velocities, so any pre-existing linear speed survives it. -/
theorem carDrive_no_speed_clamp :
    ¬ ∃ M : ℚ, ∀ c : CarState, wheelSpeedSq (carDrive c).wheelB ≤ M := by
  rintro ⟨M, hM⟩
  set v : ℚ := max M 0 + 1 with hv
  have h1 : wheelSpeedSq (carDrive ⟨⟨⟨0, 0⟩, ⟨0, 0⟩, 0⟩, ⟨⟨0, 0⟩, ⟨v, 0⟩, 0⟩,
      ⟨⟨0, 0⟩, ⟨0, 0⟩, 0⟩⟩).wheelB = v ^ 2 := by
    simp [carDrive, wheelSpeedSq]
  have h2 := hM ⟨⟨⟨0, 0⟩, ⟨0, 0⟩, 0⟩, ⟨⟨0, 0⟩, ⟨v, 0⟩, 0⟩, ⟨⟨0, 0⟩, ⟨0, 0⟩, 0⟩⟩
  rw [h1] at h2
  have hv1 : (1 : ℚ) ≤ v := by
    have : (0 : ℚ) ≤ max M 0 := le_max_right M 0
    linarith
  have hMv : M < v := by
    have : M ≤ max M 0 := le_max_left M 0
    linarith
  nlinarith

/-- C5 amended: the car drive step directly sets both wheel angular
velocities to the constant carSpeed and leaves everything else unchanged; in
particular the wheels' linear velocities are not clamped or modified. -/
theorem carDrive_sets_wheel_angularVelocity (c : CarState) :
    (carDrive c).wheelB.angularVelocity = carSpeed ∧
    (carDrive c).wheelF.angularVelocity = carSpeed ∧
    (carDrive c).wheelB.velocity = c.wheelB.velocity ∧
    (carDrive c).wheelF.velocity = c.wheelF.velocity ∧
    (carDrive c).wheelB.position = c.wheelB.position ∧
    (carDrive c).wheelF.position = c.wheelF.position ∧
    (carDrive c).chassis = c.chassis := by
  simp [carDrive]

/-- A fallen car: chassis below the threshold, with nonzero velocities on
the chassis and on both wheels. -/
def carFallen : CarState :=
  ⟨⟨⟨40, 2500⟩, ⟨1, 2⟩, 3⟩, ⟨⟨20, 2520⟩, ⟨7, 8⟩, 9⟩, ⟨⟨60, 2520⟩, ⟨4, 6⟩, 11⟩⟩

/-- C6 counterexample: the car fall reset does not zero the velocities of
the whole composite.  On a concrete fallen state the threshold is breached,
yet after the reset the back wheel keeps its linear velocity (7, 8) and its
angular velocity 9 instead of being zeroed. -/
theorem carReset_keeps_wheel_velocity :
    carFallen.chassis.position.y > fallThreshold ∧
    (carCheckFallAndReset carFallen).wheelB.velocity = ⟨7, 8⟩ ∧
    (carCheckFallAndReset carFallen).wheelB.angularVelocity = 9 ∧
    (carCheckFallAndReset carFallen).wheelF.velocity = ⟨4, 6⟩ ∧
    (carCheckFallAndReset carFallen).wheelB.velocity ≠ ⟨0, 0⟩ := by
  refine ⟨by norm_num [carFallen, fallThreshold], ?_⟩
  norm_num [carCheckFallAndReset, carFallen, fallThreshold]

/-- C6 amended: when the chassis position.y exceeds the threshold 2000, the
reset in that same step moves the chassis to (currentX, 0), zeroes the
chassis linear and angular velocity, and repositions both wheels to their
nominal offsets (-20, +20) and (+20, +20) relative to the new chassis
position; the wheels' linear and angular velocities are left unchanged. -/
theorem carReset_on_threshold (c : CarState)
    (hy : c.chassis.position.y > fallThreshold) :
    (carCheckFallAndReset c).chassis.position = ⟨c.chassis.position.x, 0⟩ ∧
    (carCheckFallAndReset c).chassis.velocity = ⟨0, 0⟩ ∧
    (carCheckFallAndReset c).chassis.angularVelocity = 0 ∧
    (carCheckFallAndReset c).wheelB.position = ⟨c.chassis.position.x - 20, 20⟩ ∧
    (carCheckFallAndReset c).wheelF.position = ⟨c.chassis.position.x + 20, 20⟩ ∧
    (carCheckFallAndReset c).wheelB.velocity = c.wheelB.velocity ∧
    (carCheckFallAndReset c).wheelF.velocity = c.wheelF.velocity ∧
    (carCheckFallAndReset c).wheelB.angularVelocity = c.wheelB.angularVelocity ∧
    (carCheckFallAndReset c).wheelF.angularVelocity = c.wheelF.angularVelocity := by
  simp [carCheckFallAndReset, hy]

/-- A second fallen car used to witness the amended reset theorem. -/
def carFallenW : CarState :=
  ⟨⟨⟨100, 3000⟩, ⟨5, -5⟩, 2⟩, ⟨⟨80, 3020⟩, ⟨1, 1⟩, 4⟩, ⟨⟨120, 3020⟩, ⟨2, 2⟩, 6⟩⟩

/-- Witness for carReset_on_threshold at a concrete fallen car. -/
theorem carReset_on_threshold_witness :
    (carCheckFallAndReset carFallenW).chassis.position = ⟨100, 0⟩ ∧
    (carCheckFallAndReset carFallenW).chassis.velocity = ⟨0, 0⟩ ∧
    (carCheckFallAndReset carFallenW).chassis.angularVelocity = 0 ∧
    (carCheckFallAndReset carFallenW).wheelB.position = ⟨80, 20⟩ ∧
    (carCheckFallAndReset carFallenW).wheelF.position = ⟨120, 20⟩ ∧
    (carCheckFallAndReset carFallenW).wheelB.velocity = ⟨1, 1⟩ ∧
    (carCheckFallAndReset carFallenW).wheelF.velocity = ⟨2, 2⟩ ∧
    (carCheckFallAndReset carFallenW).wheelB.angularVelocity = 4 ∧
    (carCheckFallAndReset carFallenW).wheelF.angularVelocity = 6 := by
  have h := carReset_on_threshold carFallenW (by norm_num [carFallenW, fallThreshold])
  norm_num [carFallenW] at h ⊢
  exact h

/-! ## Chunk streaming

Both variants manage terrain the same way: a queue terrainBodies of live
chunks, a frontier cursor lastTerrainX, a generation check against the
vehicle position, and a shift-based cleanup bounded at 5 live chunks.  The
queue logic is shared here through a record of per-variant operations. -/

/-- One static rectangle segment body of the ball variant's terrain,
recorded by the two sampled profile points it connects (lines 108-121).
The source derives the rectangle's midpoint, length (Math.hypot) and angle
(Math.atan2) from exactly these two points; those derived floating-point
quantities are functions of this data and play no role in any claim. -/
structure SegmentBody where
  x1 : ℚ
  y1 : ℚ
  x2 : ℚ
  y2 : ℚ
deriving DecidableEq, Repr

/-- One live chunk of the ball variant, the object pushed at line 134: its
segment bodies and its render path.  The span endpoints are implicit in the
source (the path runs from spanStart to spanEnd); the model records the two
frontier values from which the chunk was generated. -/
structure BallChunk where
  bodies : List SegmentBody
  path : List Vec2
  spanStart : ℚ
  spanEnd : ℚ
deriving DecidableEq, Repr

/-- The sampling loop of the ball variant's generateTerrainChunk (lines
105-129): starting from the previous sample (prevX, prevY) and cursor x,
while x has not passed endX, push one segment and one path point and step
the cursor by segmentWidth.  Returns the bodies, the path so far, and the
final previous sample, which line 131 appends to the path.  The function h
stands for getTerrainHeight.  The fuel argument only bounds the recursion
depth; the loop stops at its own x > endX guard. -/
def chunkLoop (h : ℚ → ℚ) (endX : ℚ) :
    ℚ → ℚ → ℚ → ℕ → List SegmentBody × List Vec2 × Vec2
  | prevX, prevY, _, 0 => ([], [], ⟨prevX, prevY⟩)
  | prevX, prevY, x, fuel+1 =>
    if x ≤ endX then
      let currentY := 400 + h x
      let rest := chunkLoop h endX x currentY (x + segmentWidth) fuel
      (⟨prevX, prevY, x, currentY⟩ :: rest.1, ⟨prevX, prevY⟩ :: rest.2.1, rest.2.2)
    else ([], [], ⟨prevX, prevY⟩)

/-- The ball variant's generateTerrainChunk (lines 94-136), as the chunk it
builds from frontier position startX. -/
def mkBallChunk (h : ℚ → ℚ) (startX : ℚ) : BallChunk :=
  let endX := startX + chunkWidth
  let r := chunkLoop h endX startX (400 + h startX) (startX + segmentWidth) 1000
  { bodies := r.1, path := r.2.1 ++ [r.2.2], spanStart := startX, spanEnd := endX }

/-- The single concave terrain body of one car-variant chunk, recorded by
its vertex list (lines 395-416), with the generating span made explicit. -/
structure CarChunk where
  vertices : List Vec2
  spanStart : ℚ
  spanEnd : ℚ
deriving DecidableEq, Repr

/-- The vertex sampling loop of the car variant's generateTerrainChunk
(lines 398-401): from x to endX inclusive in steps of segmentWidth, one
vertex per sample at height 300 plus the car heightfield, abstracted as h. -/
def carVertLoop (h : ℚ → ℚ) (endX : ℚ) : ℚ → ℕ → List Vec2
  | _, 0 => []
  | x, fuel+1 =>
    if x ≤ endX then ⟨x, 300 + h x⟩ :: carVertLoop h endX (x + segmentWidth) fuel
    else []

/-- The car variant's generateTerrainChunk (lines 390-425): the sampled
profile closed by two bottom vertices at depth 1000 (lines 396 and 403). -/
def mkCarChunk (h : ℚ → ℚ) (startX : ℚ) : CarChunk :=
  let endX := startX + carChunkWidth
  { vertices := ⟨startX, 1000⟩ :: (carVertLoop h endX startX 1000 ++ [⟨endX, 1000⟩])
    spanStart := startX
    spanEnd := endX }

/-- The per-variant chunk operations of the streamer: how a chunk is built
at a frontier position, how its span is read back, and the chunk width. -/
structure StreamerOps (C : Type) where
  build : ℚ → C
  spanStart : C → ℚ
  spanEnd : C → ℚ
  width : ℚ
  build_start : ∀ x, spanStart (build x) = x
  build_end : ∀ x, spanEnd (build x) = x + width
  width_pos : 0 < width

/-- The streamer-relevant game state: the vehicle's horizontal position, the
frontier cursor lastTerrainX, and the live chunk queue terrainBodies. -/
structure StreamSt (C : Type) where
  playerX : ℚ
  lastTerrainX : ℚ
  chunks : List C
deriving DecidableEq

/-- The queue effect of generateTerrainChunk (lines 134-135 and 423-424):
push the new chunk, advance the frontier by one chunk width. -/
def genChunk {C : Type} (ops : StreamerOps C) (s : StreamSt C) : StreamSt C :=
  { s with
      chunks := s.chunks ++ [ops.build s.lastTerrainX]
      lastTerrainX := s.lastTerrainX + ops.width }

/-- The generation check of updateGame (lines 175-177 and 502-504):
generate one chunk when the vehicle is within two chunk widths of the
frontier. -/
def advanceStep {C : Type} (ops : StreamerOps C) (s : StreamSt C) : StreamSt C :=
  if s.playerX > s.lastTerrainX - ops.width * 2 then genChunk ops s else s

/-- The cleanup of updateGame (lines 180-183 and 507-510): when more than 5
chunks are live, shift the oldest off the front of the queue (its bodies are
removed from the physics world); the shifted chunk is returned alongside. -/
def evictStep {C : Type} (s : StreamSt C) : StreamSt C × Option C :=
  if 5 < s.chunks.length then ({ s with chunks := s.chunks.tail }, s.chunks.head?)
  else (s, none)

/-- One streamer step: between two callback invocations the physics engine
displaces the vehicle horizontally by some amount d, then the beforeUpdate
callback runs the generation check followed by the cleanup. -/
def streamStep {C : Type} (ops : StreamerOps C) (s : StreamSt C) (d : ℚ) :
    StreamSt C × Option C :=
  evictStep (advanceStep ops { s with playerX := s.playerX + d })

/-- The streamer states reachable from a given initial state under arbitrary
per-step vehicle displacements. -/
inductive StreamReach {C : Type} (ops : StreamerOps C) (init : StreamSt C) :
    StreamSt C → Prop
  | refl : StreamReach ops init init
  | step (s : StreamSt C) (d : ℚ) :
      StreamReach ops init s → StreamReach ops init (streamStep ops s d).1

/-- The streamer states reachable when every per-step displacement is
bounded above by B. -/
inductive StreamReachBdd {C : Type} (ops : StreamerOps C) (B : ℚ)
    (init : StreamSt C) : StreamSt C → Prop
  | refl : StreamReachBdd ops B init init
  | step (s : StreamSt C) (d : ℚ) (hd : d ≤ B) :
      StreamReachBdd ops B init s → StreamReachBdd ops B init (streamStep ops s d).1

/-- The ball variant's streamer operations: chunk width 1000. -/
def ballOps (h : ℚ → ℚ) : StreamerOps BallChunk :=
  { build := mkBallChunk h
    spanStart := BallChunk.spanStart
    spanEnd := BallChunk.spanEnd
    width := chunkWidth
    build_start := fun _ => rfl
    build_end := fun _ => rfl
    width_pos := by norm_num [chunkWidth] }

/-- The car variant's streamer operations: chunk width 800. -/
def carOps (h : ℚ → ℚ) : StreamerOps CarChunk :=
  { build := mkCarChunk h
    spanStart := CarChunk.spanStart
    spanEnd := CarChunk.spanEnd
    width := carChunkWidth
    build_start := fun _ => rfl
    build_end := fun _ => rfl
    width_pos := by norm_num [carChunkWidth] }

/-- The ball variant's startup state: player at x = 0 (line 45), frontier
starting at -800 (line 25), then three chunks generated (lines 48-50). -/
def ballInitSt (h : ℚ → ℚ) : StreamSt BallChunk :=
  genChunk (ballOps h) (genChunk (ballOps h) (genChunk (ballOps h) ⟨0, -800, []⟩))

/-- The car variant's startup state: car at x = 0 (line 333), frontier
starting at 0 (line 309), then three chunks generated (lines 336-338). -/
def carInitSt (h : ℚ → ℚ) : StreamSt CarChunk :=
  genChunk (carOps h) (genChunk (carOps h) (genChunk (carOps h) ⟨0, 0, []⟩))

/-- Span contiguity between two consecutive chunks. -/
def Contig {C : Type} (ops : StreamerOps C) (a b : C) : Prop :=
  ops.spanEnd a = ops.spanStart b

/-- The streaming invariant: the queue is span-contiguous, every live chunk
spans exactly one chunk width, the last chunk ends at the frontier, and at
most 5 chunks are live. -/
def StreamInv {C : Type} (ops : StreamerOps C) (s : StreamSt C) : Prop :=
  List.Chain' (Contig ops) s.chunks ∧
  (∀ c ∈ s.chunks, ops.spanEnd c = ops.spanStart c + ops.width) ∧
  (∀ c ∈ s.chunks.getLast?, ops.spanEnd c = s.lastTerrainX) ∧
  s.chunks.length ≤ 5

/-- Appending a freshly generated chunk preserves the span part of the
streaming invariant and grows the queue by one. -/
theorem genChunk_spanInv {C : Type} (ops : StreamerOps C) (s : StreamSt C)
    (h1 : List.Chain' (Contig ops) s.chunks)
    (h2 : ∀ c ∈ s.chunks, ops.spanEnd c = ops.spanStart c + ops.width)
    (h3 : ∀ c ∈ s.chunks.getLast?, ops.spanEnd c = s.lastTerrainX) :
    List.Chain' (Contig ops) (genChunk ops s).chunks ∧
    (∀ c ∈ (genChunk ops s).chunks, ops.spanEnd c = ops.spanStart c + ops.width) ∧
    (∀ c ∈ (genChunk ops s).chunks.getLast?,
      ops.spanEnd c = (genChunk ops s).lastTerrainX) ∧
    (genChunk ops s).chunks.length = s.chunks.length + 1 := by
  refine ⟨?_, ?_, ?_, by simp [genChunk]⟩
  · rw [genChunk, List.chain'_append]
    refine ⟨h1, List.chain'_singleton _, ?_⟩
    intro x hx y hy
    simp only [List.head?_cons, Option.mem_def, Option.some.injEq] at hy
    subst hy
    unfold Contig
    rw [ops.build_start, h3 x hx]
  · intro c hc
    rw [genChunk] at hc
    simp only [List.mem_append, List.mem_singleton] at hc
    rcases hc with hc | hc
    · exact h2 c hc
    · subst hc
      rw [ops.build_start, ops.build_end]
  · intro c hc
    rw [genChunk] at hc
    rw [List.getLast?_concat] at hc
    simp only [Option.mem_def, Option.some.injEq] at hc
    subst hc
    rw [ops.build_end]
    rfl

/-- The last element survives dropping the head of a list of length at
least two. -/
theorem getLast_of_tail {α : Type} (l : List α) (h : 2 ≤ l.length) :
    l.tail.getLast? = l.getLast? := by
  match l with
  | [] => simp at h
  | [a] => simp at h
  | a :: b :: r => rfl

/-- A span-contiguous queue of full-width chunks has strictly increasing
span starts between consecutive chunks. -/
theorem chain'_contig_lt {C : Type} (ops : StreamerOps C) :
    ∀ l : List C, List.Chain' (Contig ops) l →
      (∀ c ∈ l, ops.spanEnd c = ops.spanStart c + ops.width) →
      List.Chain' (fun a b => ops.spanStart a < ops.spanStart b) l
  | [], _, _ => List.chain'_nil
  | [a], _, _ => List.chain'_singleton a
  | a :: b :: l, hc, hw => by
    rw [List.chain'_cons] at hc ⊢
    refine ⟨?_, chain'_contig_lt ops (b :: l) hc.2
      (fun c hcm => hw c (List.mem_cons_of_mem a hcm))⟩
    have ha := hw a (List.mem_cons_self a (b :: l))
    have hab : ops.spanStart a + ops.width = ops.spanStart b := by
      rw [← ha]; exact hc.1
    have := ops.width_pos
    linarith

/-- A span-contiguous queue of full-width chunks has pairwise strictly
increasing span starts. -/
theorem pairwise_of_contig {C : Type} (ops : StreamerOps C) (l : List C)
    (hc : List.Chain' (Contig ops) l)
    (hw : ∀ c ∈ l, ops.spanEnd c = ops.spanStart c + ops.width) :
    List.Pairwise (fun a b => ops.spanStart a < ops.spanStart b) l := by
  haveI : IsTrans C (fun a b => ops.spanStart a < ops.spanStart b) :=
    ⟨fun _ _ _ h1 h2 => lt_trans h1 h2⟩
  rw [← List.chain'_iff_pairwise]
  exact chain'_contig_lt ops l hc hw

/-- One full streamer step preserves the streaming invariant. -/
theorem streamStep_inv {C : Type} (ops : StreamerOps C) (s : StreamSt C) (d : ℚ)
    (h : StreamInv ops s) : StreamInv ops (streamStep ops s d).1 := by
  obtain ⟨h1, h2, h3, h4⟩ := h
  rw [streamStep]
  set s' : StreamSt C := { s with playerX := s.playerX + d } with hs'
  have hadv : List.Chain' (Contig ops) (advanceStep ops s').chunks ∧
      (∀ c ∈ (advanceStep ops s').chunks,
        ops.spanEnd c = ops.spanStart c + ops.width) ∧
      (∀ c ∈ (advanceStep ops s').chunks.getLast?,
        ops.spanEnd c = (advanceStep ops s').lastTerrainX) ∧
      (advanceStep ops s').chunks.length ≤ s.chunks.length + 1 := by
    rw [advanceStep]
    by_cases hcond : s'.playerX > s'.lastTerrainX - ops.width * 2
    · rw [if_pos hcond]
      have := genChunk_spanInv ops s' h1 h2 h3
      exact ⟨this.1, this.2.1, this.2.2.1, le_of_eq this.2.2.2⟩
    · rw [if_neg hcond]
      exact ⟨h1, h2, h3, Nat.le_succ_of_le (le_refl _)⟩
  set t : StreamSt C := advanceStep ops s' with ht
  obtain ⟨t1, t2, t3, t4⟩ := hadv
  rw [evictStep]
  by_cases hl : 5 < t.chunks.length
  · rw [if_pos hl]
    refine ⟨t1.tail, ?_, ?_, ?_⟩
    · intro c hc
      exact t2 c (List.mem_of_mem_tail hc)
    · intro c hc
      rw [getLast_of_tail t.chunks (by omega)] at hc
      exact t3 c hc
    · simp only [List.length_tail]
      omega
  · rw [if_neg hl]
    exact ⟨t1, t2, t3, Nat.le_of_not_lt hl⟩

/-- Every state reachable from an invariant-satisfying initial state
satisfies the streaming invariant. -/
theorem reach_inv {C : Type} (ops : StreamerOps C) (init : StreamSt C)
    (hinit : StreamInv ops init) :
    ∀ s, StreamReach ops init s → StreamInv ops s := by
  intro s hs
  induction hs with
  | refl => exact hinit
  | step s d _ ih => exact streamStep_inv ops s d ih

/-- The startup state (three generations from an empty queue) satisfies the
streaming invariant. -/
theorem init3_inv {C : Type} (ops : StreamerOps C) (p x0 : ℚ) :
    StreamInv ops (genChunk ops (genChunk ops (genChunk ops ⟨p, x0, []⟩))) := by
  have h0 : StreamInv ops (⟨p, x0, []⟩ : StreamSt C) := by
    refine ⟨List.chain'_nil, ?_, ?_, by simp⟩
    · intro c hc; simp at hc
    · intro c hc; simp at hc
  obtain ⟨a1, a2, a3, a4⟩ := h0
  have g1 := genChunk_spanInv ops ⟨p, x0, []⟩ a1 a2 a3
  have g2 := genChunk_spanInv ops _ g1.1 g1.2.1 g1.2.2.1
  have g3 := genChunk_spanInv ops _ g2.1 g2.2.1 g2.2.2.1
  refine ⟨g3.1, g3.2.1, g3.2.2.1, ?_⟩
  rw [g3.2.2.2, g2.2.2.2, g1.2.2.2]
  simp

/-- When a step from an invariant state evicts a chunk, that chunk is the
head of the post-generation queue and its span start is strictly below the
span start of every chunk that remains live. -/
theorem evicted_oldest {C : Type} (ops : StreamerOps C) (s : StreamSt C) (d : ℚ)
    (c : C) (h : StreamInv ops s) (he : (streamStep ops s d).2 = some c) :
    ∀ c2 ∈ (streamStep ops s d).1.chunks, ops.spanStart c < ops.spanStart c2 := by
  obtain ⟨h1, h2, h3, h4⟩ := h
  rw [streamStep] at he ⊢
  set s' : StreamSt C := { s with playerX := s.playerX + d } with hs'
  have hadv : List.Chain' (Contig ops) (advanceStep ops s').chunks ∧
      (∀ cc ∈ (advanceStep ops s').chunks,
        ops.spanEnd cc = ops.spanStart cc + ops.width) := by
    rw [advanceStep]
    by_cases hcond : s'.playerX > s'.lastTerrainX - ops.width * 2
    · rw [if_pos hcond]
      have := genChunk_spanInv ops s' h1 h2 h3
      exact ⟨this.1, this.2.1⟩
    · rw [if_neg hcond]
      exact ⟨h1, h2⟩
  set t : StreamSt C := advanceStep ops s' with ht
  have hpw := pairwise_of_contig ops t.chunks hadv.1 hadv.2
  rw [evictStep] at he ⊢
  by_cases hl : 5 < t.chunks.length
  · rw [if_pos hl] at he ⊢
    simp only at he ⊢
    match hq : t.chunks with
    | [] => rw [hq] at hl; simp at hl
    | a :: r =>
      rw [hq] at he hpw
      simp only [List.head?_cons, Option.some.injEq] at he
      subst he
      intro c2 hc2
      simp only [List.tail_cons] at hc2
      exact (List.pairwise_cons.mp hpw).1 c2 hc2
  · rw [if_neg hl] at he
    simp at he


/-- The span start of a generated ball chunk is its generating frontier. -/
theorem mkBallChunk_spanStart (h : ℚ → ℚ) (x : ℚ) :
    (mkBallChunk h x).spanStart = x := rfl

/-- The zero height function, used to instantiate witnesses. -/
def hzero : ℚ → ℚ := fun _ => 0

/-- C1: in both variants, every reachable streamer state has a live chunk
queue whose consecutive spans are contiguous (each spanEnd equals the next
spanStart), whose spanStart values are pairwise strictly increasing, and
whenever a step evicts a chunk, the evicted chunk's spanStart is strictly
below that of every chunk remaining live, so chunks leave the queue in the
FIFO order they were produced. -/
theorem chunk_queue_ordered_fifo :
    (∀ (h : ℚ → ℚ) (s : StreamSt BallChunk),
      StreamReach (ballOps h) (ballInitSt h) s →
      List.Chain' (fun a b : BallChunk => a.spanEnd = b.spanStart) s.chunks ∧
      List.Pairwise (fun a b : BallChunk => a.spanStart < b.spanStart) s.chunks ∧
      (∀ (d : ℚ) (c : BallChunk), (streamStep (ballOps h) s d).2 = some c →
        ∀ c2 ∈ (streamStep (ballOps h) s d).1.chunks, c.spanStart < c2.spanStart)) ∧
    (∀ (h : ℚ → ℚ) (u : StreamSt CarChunk),
      StreamReach (carOps h) (carInitSt h) u →
      List.Chain' (fun a b : CarChunk => a.spanEnd = b.spanStart) u.chunks ∧
      List.Pairwise (fun a b : CarChunk => a.spanStart < b.spanStart) u.chunks ∧
      (∀ (d : ℚ) (c : CarChunk), (streamStep (carOps h) u d).2 = some c →
        ∀ c2 ∈ (streamStep (carOps h) u d).1.chunks, c.spanStart < c2.spanStart)) := by
  constructor
  · intro h s hs
    have hinv := reach_inv (ballOps h) (ballInitSt h) (init3_inv (ballOps h) 0 (-800)) s hs
    exact ⟨hinv.1, pairwise_of_contig (ballOps h) s.chunks hinv.1 hinv.2.1,
      fun d c he => evicted_oldest (ballOps h) s d c hinv he⟩
  · intro h u hu
    have hinv := reach_inv (carOps h) (carInitSt h) (init3_inv (carOps h) 0 0) u hu
    exact ⟨hinv.1, pairwise_of_contig (carOps h) u.chunks hinv.1 hinv.2.1,
      fun d c he => evicted_oldest (carOps h) u d c hinv he⟩

/-- Witness for chunk_queue_ordered_fifo at the startup states. -/
theorem chunk_queue_ordered_fifo_witness :
    List.Chain' (fun a b : BallChunk => a.spanEnd = b.spanStart)
      (ballInitSt hzero).chunks ∧
    List.Chain' (fun a b : CarChunk => a.spanEnd = b.spanStart)
      (carInitSt hzero).chunks :=
  ⟨(chunk_queue_ordered_fifo.1 hzero (ballInitSt hzero) StreamReach.refl).1,
   (chunk_queue_ordered_fifo.2 hzero (carInitSt hzero) StreamReach.refl).1⟩

/-- The eviction scenario (ball variant): three updateGame steps after
startup with the vehicle advancing 1000 per step; each step triggers one
generation, for six generations in total counting the three at startup. -/
def ballScenario (h : ℚ → ℚ) : StreamSt BallChunk × Option BallChunk :=
  streamStep (ballOps h)
    (streamStep (ballOps h) (streamStep (ballOps h) (ballInitSt h) 1000).1 1000).1 1000

/-- Startup leaves three chunks spanning -800 to 2200. -/
theorem ballInit_eval (h : ℚ → ℚ) :
    ballInitSt h =
      ⟨0, 2200, [mkBallChunk h (-800), mkBallChunk h 200, mkBallChunk h 1200]⟩ := by
  norm_num [ballInitSt, genChunk, ballOps, chunkWidth]

/-- First scenario step: a fourth generation, no eviction. -/
theorem ballScenario_step1 (h : ℚ → ℚ) :
    streamStep (ballOps h) (ballInitSt h) 1000 =
      (⟨1000, 3200, [mkBallChunk h (-800), mkBallChunk h 200, mkBallChunk h 1200,
        mkBallChunk h 2200]⟩, none) := by
  rw [ballInit_eval]
  norm_num [streamStep, advanceStep, evictStep, genChunk, ballOps, chunkWidth]

/-- Second scenario step: a fifth generation, no eviction. -/
theorem ballScenario_step2 (h : ℚ → ℚ) :
    streamStep (ballOps h) (streamStep (ballOps h) (ballInitSt h) 1000).1 1000 =
      (⟨2000, 4200, [mkBallChunk h (-800), mkBallChunk h 200, mkBallChunk h 1200,
        mkBallChunk h 2200, mkBallChunk h 3200]⟩, none) := by
  rw [ballScenario_step1]
  norm_num [streamStep, advanceStep, evictStep, genChunk, ballOps, chunkWidth]

/-- Evaluating the full eviction scenario: the sixth generation pushes the
queue to six chunks and the cleanup shifts the first chunk, the one
generated at frontier -800. -/
theorem ballScenario_eval (h : ℚ → ℚ) :
    ballScenario h =
      (⟨3000, 5200, [mkBallChunk h 200, mkBallChunk h 1200, mkBallChunk h 2200,
          mkBallChunk h 3200, mkBallChunk h 4200]⟩,
       some (mkBallChunk h (-800))) := by
  rw [ballScenario, ballScenario_step2]
  norm_num [streamStep, advanceStep, evictStep, genChunk, ballOps, chunkWidth]

/-- C2: in both variants, every reachable streamer state keeps at most 5
live chunks; and in the concrete eviction scenario, after six successful
generations (three at startup plus one per step) the queue holds exactly 5
chunks and the evicted chunk is the one with the smallest spanStart. -/
theorem bounded_retention_and_eviction :
    (∀ (h : ℚ → ℚ) (s : StreamSt BallChunk),
      StreamReach (ballOps h) (ballInitSt h) s → s.chunks.length ≤ 5) ∧
    (∀ (h : ℚ → ℚ) (u : StreamSt CarChunk),
      StreamReach (carOps h) (carInitSt h) u → u.chunks.length ≤ 5) ∧
    (∀ h : ℚ → ℚ,
      (ballScenario h).1.chunks.length = 5 ∧
      (ballScenario h).2 = some (mkBallChunk h (-800)) ∧
      ∀ c2 ∈ (ballScenario h).1.chunks,
        (mkBallChunk h (-800)).spanStart < c2.spanStart) := by
  refine ⟨?_, ?_, ?_⟩
  · intro h s hs
    exact (reach_inv (ballOps h) (ballInitSt h) (init3_inv (ballOps h) 0 (-800)) s hs).2.2.2
  · intro h u hu
    exact (reach_inv (carOps h) (carInitSt h) (init3_inv (carOps h) 0 0) u hu).2.2.2
  · intro h
    rw [ballScenario_eval]
    refine ⟨rfl, rfl, ?_⟩
    intro c2 hc2
    simp only [List.mem_cons, List.not_mem_nil, or_false] at hc2
    rcases hc2 with hc2 | hc2 | hc2 | hc2 | hc2 <;>
      (subst hc2; rw [mkBallChunk_spanStart, mkBallChunk_spanStart]; norm_num)

/-- Witness for bounded_retention_and_eviction: the startup states have at
most 5 chunks and the scenario evicts the chunk generated at -800. -/
theorem bounded_retention_and_eviction_witness :
    (ballInitSt hzero).chunks.length ≤ 5 ∧
    (carInitSt hzero).chunks.length ≤ 5 ∧
    (ballScenario hzero).2 = some (mkBallChunk hzero (-800)) :=
  ⟨bounded_retention_and_eviction.1 hzero (ballInitSt hzero) StreamReach.refl,
   (bounded_retention_and_eviction.2.1 hzero (carInitSt hzero) StreamReach.refl),
   (bounded_retention_and_eviction.2.2 hzero).2.1⟩

/-- Generic no-starvation bound: if every per-step displacement is at most
B, with 0 ≤ B ≤ the chunk width, and the initial frontier leads the vehicle
by at least two widths minus B, then that lead is maintained forever. -/
theorem reachBdd_frontier {C : Type} (ops : StreamerOps C) (B : ℚ)
    (init : StreamSt C) (hB0 : 0 ≤ B) (hBw : B ≤ ops.width)
    (hinit : init.lastTerrainX - init.playerX ≥ ops.width * 2 - B) :
    ∀ s, StreamReachBdd ops B init s →
      s.lastTerrainX - s.playerX ≥ ops.width * 2 - B := by
  intro s hs
  induction hs with
  | refl => exact hinit
  | step s d hd _ ih =>
    rw [streamStep]
    have hev : ∀ u : StreamSt C, (evictStep u).1.playerX = u.playerX ∧
        (evictStep u).1.lastTerrainX = u.lastTerrainX := by
      intro u
      rw [evictStep]
      by_cases hc : 5 < u.chunks.length
      · rw [if_pos hc]; exact ⟨rfl, rfl⟩
      · rw [if_neg hc]; exact ⟨rfl, rfl⟩
    set s' : StreamSt C := { s with playerX := s.playerX + d } with hs'
    obtain ⟨hp, hlx⟩ := hev (advanceStep ops s')
    rw [hp, hlx, advanceStep]
    by_cases hcond : s'.playerX > s'.lastTerrainX - ops.width * 2
    · rw [if_pos hcond]
      show (genChunk ops s').lastTerrainX - (genChunk ops s').playerX ≥ _
      simp only [genChunk, hs']
      linarith
    · rw [if_neg hcond]
      push_neg at hcond
      simp only [hs'] at hcond ⊢
      linarith

/-- C3: in the ball variant, starting from the three pre-generated startup
chunks, as long as every per-step horizontal displacement is at most one
chunk width (the slack of the two-chunk-width look-ahead margin over the
one chunk generated per step), the generated frontier never falls behind
the vehicle: lastTerrainX - playerX stays nonnegative. -/
theorem no_starvation_ball (h : ℚ → ℚ) (s : StreamSt BallChunk)
    (hs : StreamReachBdd (ballOps h) chunkWidth (ballInitSt h) s) :
    s.lastTerrainX - s.playerX ≥ 0 := by
  have hb := reachBdd_frontier (ballOps h) chunkWidth (ballInitSt h)
    (by norm_num [chunkWidth]) (le_refl chunkWidth) ?_ s hs
  · have : (ballOps h).width = chunkWidth := rfl
    rw [this] at hb
    norm_num [chunkWidth] at hb
    linarith
  · rw [ballInit_eval]
    show (2200 : ℚ) - 0 ≥ (ballOps h).width * 2 - chunkWidth
    norm_num [ballOps, chunkWidth]

/-- Witness for no_starvation_ball at the startup state. -/
theorem no_starvation_ball_witness :
    (ballInitSt hzero).lastTerrainX - (ballInitSt hzero).playerX ≥ 0 :=
  no_starvation_ball hzero (ballInitSt hzero) StreamReachBdd.refl

/-- The sampling loop runs exactly n iterations when the span ahead of the
cursor is n sample widths, producing n segments and n path points. -/
theorem chunkLoop_counts :
    ∀ (n fuel : ℕ), n ≤ fuel → ∀ (h : ℚ → ℚ) (p prevX prevY : ℚ),
      (chunkLoop h (p + segmentWidth * n) prevX prevY (p + segmentWidth) fuel).1.length = n ∧
      (chunkLoop h (p + segmentWidth * n) prevX prevY (p + segmentWidth) fuel).2.1.length = n := by
  intro n
  induction n with
  | zero =>
    intro fuel _ h p prevX prevY
    have hguard : ¬ (p + segmentWidth ≤ p + segmentWidth * (0 : ℕ)) := by
      push_cast
      norm_num [segmentWidth]
    cases fuel with
    | zero => simp [chunkLoop]
    | succ f => norm_num [chunkLoop, segmentWidth]
  | succ m ih =>
    intro fuel hf h p prevX prevY
    cases fuel with
    | zero => omega
    | succ f =>
      have hguard : p + segmentWidth ≤ p + segmentWidth * ((m + 1 : ℕ) : ℚ) := by
        push_cast
        norm_num [segmentWidth]
      have hend : p + segmentWidth * ((m + 1 : ℕ) : ℚ) =
          (p + segmentWidth) + segmentWidth * (m : ℕ) := by
        push_cast
        ring
      have hrec := ih f (by omega) h (p + segmentWidth) (p + segmentWidth) (400 + h (p + segmentWidth))
      rw [chunkLoop, if_pos hguard]
      simp only [List.length_cons]
      rw [hend]
      exact ⟨by rw [hrec.1], by rw [hrec.2]⟩

/-- C10: in the ball variant with the fixed configuration (chunkWidth 1000,
segmentWidth 20), every invocation of generateTerrainChunk produces exactly
50 collider segments and 51 render-path points; in particular the chunk is
never empty, so the degenerate case of fewer than 2 samples is unreachable
and no empty-chunk guard is needed. -/
theorem ballChunk_counts (h : ℚ → ℚ) (startX : ℚ) :
    (mkBallChunk h startX).bodies.length = 50 ∧
    (mkBallChunk h startX).path.length = 51 ∧
    (mkBallChunk h startX).bodies ≠ [] ∧
    2 ≤ (mkBallChunk h startX).path.length := by
  have h50 := chunkLoop_counts 50 1000 (by norm_num) h startX startX (400 + h startX)
  have harg : startX + segmentWidth * ((50 : ℕ) : ℚ) = startX + chunkWidth := by
    norm_num [segmentWidth, chunkWidth]
  rw [harg] at h50
  have hbodies : (mkBallChunk h startX).bodies =
      (chunkLoop h (startX + chunkWidth) startX (400 + h startX)
        (startX + segmentWidth) 1000).1 := rfl
  have hpath : (mkBallChunk h startX).path =
      (chunkLoop h (startX + chunkWidth) startX (400 + h startX)
        (startX + segmentWidth) 1000).2.1 ++
      [(chunkLoop h (startX + chunkWidth) startX (400 + h startX)
        (startX + segmentWidth) 1000).2.2] := rfl
  have hlen : (mkBallChunk h startX).path.length = 51 := by
    rw [hpath, List.length_append, h50.2]
    rfl
  refine ⟨by rw [hbodies, h50.1], hlen, ?_, by rw [hlen]; norm_num⟩
  intro hnil
  rw [hnil] at hbodies
  rw [← hbodies] at h50
  simp at h50

/-! ## The heightfield over the reals

The terrain generator (lines 75-92) computes with Math.sin; it is modelled
here over the real numbers.  The analytic claims (determinism, continuity,
smoothness of the interpolation) concern this model. -/

noncomputable section

/-- The base pseudo-random lattice function noise (lines 75-78): the
fractional part of sin(x) * 10000. -/
def noise (x : ℝ) : ℝ := Int.fract (Real.sin x * 10000)

/-- The cubic smoothstep blend weight u = f * f * (3 - 2 * f) (line 83). -/
def blendWeight (f : ℝ) : ℝ := f * f * (3 - 2 * f)

/-- The interpolated lattice noise smoothNoise (lines 80-85): floor the
coordinate, form the cubic blend weight from the fractional part, and
interpolate the base noise at the two surrounding lattice points. -/
def smoothNoise (x : ℝ) : ℝ :=
  let i : ℝ := ⌊x⌋
  let f : ℝ := x - i
  let u : ℝ := f * f * (3 - 2 * f)
  noise i * (1 - u) + noise (i + 1) * u

/-- getTerrainHeight of the ball variant (lines 87-92): two smoothNoise
octaves at smoothness 0.003 (the second five times finer, offset by 100),
summed with weights 300 and 80. -/
def getTerrainHeight (noiseSeed x : ℝ) : ℝ :=
  let val1 := smoothNoise (x * (3 / 1000) + noiseSeed)
  let val2 := smoothNoise (x * (3 / 1000) * 5 + noiseSeed + 100)
  val1 * 300 + val2 * 80

/-- One terrain generator instance: the module-level noiseSeed chosen once
at startup (line 26) and never reassigned; it is the only state the height
functions read. -/
structure NoiseGen where
  noiseSeed : ℝ

/-- The height read through a generator instance. -/
def genHeight (g : NoiseGen) (x : ℝ) : ℝ := getTerrainHeight g.noiseSeed x

/-- The interpolation polynomial of the lattice cell starting at integer i,
in the local coordinate f; smoothNoise evaluates it at f = fract x. -/
def latticeCell (i : ℤ) (f : ℝ) : ℝ :=
  noise i * (1 - blendWeight f) + noise ((i : ℝ) + 1) * blendWeight f

/-- The derivative in the local coordinate of the cell polynomial. -/
def latticeCellD (i : ℤ) (f : ℝ) : ℝ :=
  (noise ((i : ℝ) + 1) - noise (i : ℝ)) * (6 * f - 6 * f ^ 2)

/-- The candidate derivative of smoothNoise. -/
def smoothNoiseD (x : ℝ) : ℝ := latticeCellD ⌊x⌋ (Int.fract x)

end

/-- C8: the heightfield is deterministic for a fixed seed: repeated
evaluations agree, and two independent generator instances sharing the same
seed agree at every input; getTerrainHeight reads nothing but the immutable
seed and the argument. -/
theorem getTerrainHeight_deterministic (g1 g2 : NoiseGen) (x : ℝ)
    (hseed : g1.noiseSeed = g2.noiseSeed) :
    genHeight g1 x = genHeight g1 x ∧ genHeight g1 x = genHeight g2 x := by
  refine ⟨rfl, ?_⟩
  rw [genHeight, genHeight, hseed]

/-- Witness for getTerrainHeight_deterministic: two instances seeded with 5
agree at x = 2. -/
theorem getTerrainHeight_deterministic_witness :
    genHeight ⟨5⟩ 2 = genHeight ⟨5⟩ 2 ∧ genHeight ⟨5⟩ 2 = genHeight ⟨5⟩ 2 :=
  getTerrainHeight_deterministic ⟨5⟩ ⟨5⟩ 2 rfl

/-- On the half-open cell [n, n+1), a floor-and-fract glued family agrees
with the cell function shifted to the lattice point n. -/
theorem glue_eqOn_Ico (g : ℤ → ℝ → ℝ) (n : ℤ) :
    Set.EqOn (fun x : ℝ => g ⌊x⌋ (Int.fract x)) (fun x : ℝ => g n (x - n))
      (Set.Ico (n : ℝ) ((n : ℝ) + 1)) := by
  intro y hy
  have hfl : ⌊y⌋ = n := by
    rw [Int.floor_eq_iff]
    exact ⟨hy.1, by exact_mod_cast hy.2⟩
  simp only [Int.fract, hfl]

/-- On the closed cell [n-1, n], the glued family agrees with the previous
cell function, provided consecutive cell functions match at the seam. -/
theorem glue_eqOn_Icc (g : ℤ → ℝ → ℝ) (hm : ∀ i : ℤ, g i 1 = g (i + 1) 0) (n : ℤ) :
    Set.EqOn (fun x : ℝ => g ⌊x⌋ (Int.fract x))
      (fun x : ℝ => g (n - 1) (x - ((n : ℝ) - 1)))
      (Set.Icc ((n : ℝ) - 1) (n : ℝ)) := by
  intro y hy
  rcases eq_or_lt_of_le hy.2 with hEq | hlt
  · have h1 : ⌊y⌋ = n := by rw [hEq]; exact Int.floor_intCast n
    have h2 : Int.fract y = 0 := by rw [hEq]; exact Int.fract_intCast n
    have h3 : y - ((n : ℝ) - 1) = 1 := by rw [hEq]; ring
    simp only [h1, h2, h3]
    have := hm (n - 1)
    rw [show n - 1 + 1 = n by ring] at this
    exact this.symm
  · have hfl : ⌊y⌋ = n - 1 := by
      rw [Int.floor_eq_iff]
      constructor
      · exact_mod_cast hy.1
      · push_cast
        linarith
    have hfr : Int.fract y = y - ((n : ℝ) - 1) := by
      rw [Int.fract, hfl]
      push_cast
      ring
    simp only [hfl, hfr]

/-- Gluing continuity: if each cell function is continuous and consecutive
cell functions agree at the seams, the floor-and-fract glued function is
continuous on all of the line. -/
theorem glue_continuous (g : ℤ → ℝ → ℝ) (hg : ∀ i, Continuous (g i))
    (hm : ∀ i : ℤ, g i 1 = g (i + 1) 0) :
    Continuous fun x : ℝ => g ⌊x⌋ (Int.fract x) := by
  rw [continuous_iff_continuousAt]
  intro x
  have hshift : ∀ (i : ℤ) (c : ℝ), Continuous fun y : ℝ => g i (y - c) :=
    fun i c => (hg i).comp (continuous_id.sub continuous_const)
  by_cases hx : ∃ n : ℤ, x = (n : ℝ)
  · obtain ⟨n, rfl⟩ := hx
    have hleft : ContinuousWithinAt (fun y : ℝ => g ⌊y⌋ (Int.fract y))
        (Set.Icc ((n : ℝ) - 1) (n : ℝ)) (n : ℝ) := by
      refine ((hshift (n - 1) ((n : ℝ) - 1)).continuousAt.continuousWithinAt).congr ?_ ?_
      · intro y hy
        exact glue_eqOn_Icc g hm n hy
      · exact glue_eqOn_Icc g hm n (by constructor <;> norm_num)
    have hright : ContinuousWithinAt (fun y : ℝ => g ⌊y⌋ (Int.fract y))
        (Set.Ico (n : ℝ) ((n : ℝ) + 1)) (n : ℝ) := by
      refine ((hshift n (n : ℝ)).continuousAt.continuousWithinAt).congr ?_ ?_
      · intro y hy
        exact glue_eqOn_Ico g n hy
      · exact glue_eqOn_Ico g n (by constructor <;> norm_num)
    have hunion := hleft.union hright
    rw [Set.Icc_union_Ico_eq_Ico (by norm_num) (by norm_num)] at hunion
    exact hunion.continuousAt (Ico_mem_nhds (by norm_num) (by norm_num))
  · have h1 : ((⌊x⌋ : ℤ) : ℝ) < x := by
      rcases lt_or_eq_of_le (Int.floor_le x) with h | h
      · exact h
      · exact absurd ⟨⌊x⌋, h.symm⟩ hx
    have h2 : x < ((⌊x⌋ : ℤ) : ℝ) + 1 := Int.lt_floor_add_one x
    have hmem : Set.Ioo ((⌊x⌋ : ℝ)) ((⌊x⌋ : ℝ) + 1) ∈ nhds x := isOpen_Ioo.mem_nhds ⟨h1, h2⟩
    refine (hshift ⌊x⌋ (⌊x⌋ : ℝ)).continuousAt.congr ?_
    refine (Filter.eventuallyEq_of_mem hmem ?_).symm
    intro y hy
    exact glue_eqOn_Ico g ⌊x⌋ ⟨le_of_lt hy.1, hy.2⟩

/-- A cell function shifted to a lattice point keeps its derivative. -/
theorem hasDerivAt_shift (g gd : ℤ → ℝ → ℝ)
    (hg : ∀ i t, HasDerivAt (g i) (gd i t) t) (i : ℤ) (c t : ℝ) :
    HasDerivAt (fun y : ℝ => g i (y - c)) (gd i (t - c)) t := by
  have hinner : HasDerivAt (fun y : ℝ => y - c) 1 t := (hasDerivAt_id t).sub_const c
  have := (hg i (t - c)).comp t hinner
  simpa using this

/-- Gluing differentiability: if each cell function has the given cellwise
derivative, consecutive cell functions agree at the seams, and the cellwise
derivative vanishes at both endpoints of every cell, then the glued
function is differentiable everywhere with the glued derivative. -/
theorem glue_hasDerivAt (g gd : ℤ → ℝ → ℝ)
    (hg : ∀ i t, HasDerivAt (g i) (gd i t) t)
    (hm : ∀ i : ℤ, g i 1 = g (i + 1) 0)
    (h0 : ∀ i : ℤ, gd i 0 = 0) (h1 : ∀ i : ℤ, gd i 1 = 0) :
    ∀ x : ℝ, HasDerivAt (fun y : ℝ => g ⌊y⌋ (Int.fract y)) (gd ⌊x⌋ (Int.fract x)) x := by
  intro x
  by_cases hx : ∃ n : ℤ, x = (n : ℝ)
  · obtain ⟨n, rfl⟩ := hx
    have hval : gd ⌊(n : ℝ)⌋ (Int.fract ((n : ℝ))) = 0 := by
      rw [Int.floor_intCast, Int.fract_intCast]
      exact h0 n
    rw [hval]
    have hleft : HasDerivWithinAt (fun y : ℝ => g ⌊y⌋ (Int.fract y)) 0
        (Set.Icc ((n : ℝ) - 1) (n : ℝ)) (n : ℝ) := by
      have hbase := hasDerivAt_shift g gd hg (n - 1) ((n : ℝ) - 1) (n : ℝ)
      rw [show (n : ℝ) - ((n : ℝ) - 1) = 1 by ring, h1 (n - 1)] at hbase
      refine hbase.hasDerivWithinAt.congr ?_ ?_
      · intro y hy
        exact glue_eqOn_Icc g hm n hy
      · exact glue_eqOn_Icc g hm n (by constructor <;> norm_num)
    have hright : HasDerivWithinAt (fun y : ℝ => g ⌊y⌋ (Int.fract y)) 0
        (Set.Ico (n : ℝ) ((n : ℝ) + 1)) (n : ℝ) := by
      have hbase := hasDerivAt_shift g gd hg n ((n : ℝ)) (n : ℝ)
      rw [show (n : ℝ) - (n : ℝ) = 0 by ring, h0 n] at hbase
      refine hbase.hasDerivWithinAt.congr ?_ ?_
      · intro y hy
        exact glue_eqOn_Ico g n hy
      · exact glue_eqOn_Ico g n (by constructor <;> norm_num)
    have hunion := hleft.union hright
    rw [Set.Icc_union_Ico_eq_Ico (by norm_num) (by norm_num)] at hunion
    exact hunion.hasDerivAt (Ico_mem_nhds (by norm_num) (by norm_num))
  · have hfl : ((⌊x⌋ : ℤ) : ℝ) < x := by
      rcases lt_or_eq_of_le (Int.floor_le x) with h | h
      · exact h
      · exact absurd ⟨⌊x⌋, h.symm⟩ hx
    have hfu : x < ((⌊x⌋ : ℤ) : ℝ) + 1 := Int.lt_floor_add_one x
    have hmem : Set.Ioo ((⌊x⌋ : ℝ)) ((⌊x⌋ : ℝ) + 1) ∈ nhds x := isOpen_Ioo.mem_nhds ⟨hfl, hfu⟩
    have hbase := hasDerivAt_shift g gd hg ⌊x⌋ ((⌊x⌋ : ℝ)) x
    have hfr : Int.fract x = x - ((⌊x⌋ : ℝ)) := rfl
    rw [← hfr] at hbase
    refine hbase.congr_of_eventuallyEq ?_
    refine Filter.eventuallyEq_of_mem hmem ?_
    intro y hy
    exact glue_eqOn_Ico g ⌊x⌋ ⟨le_of_lt hy.1, hy.2⟩

/-- The derivative of the cubic blend weight: 6f - 6f^2. -/
theorem blendWeight_hasDerivAt (t : ℝ) :
    HasDerivAt blendWeight (6 * t - 6 * t ^ 2) t := by
  have key : HasDerivAt (fun y : ℝ => y * y * (3 - 2 * y)) (6 * t - 6 * t ^ 2) t := by
    have h := ((hasDerivAt_id t).mul (hasDerivAt_id t)).mul
      ((hasDerivAt_const t (3 : ℝ)).sub ((hasDerivAt_const t (2 : ℝ)).mul (hasDerivAt_id t)))
    convert h using 1
    simp only [id_eq]
    ring
  exact key

/-- Each cell polynomial is continuous. -/
theorem latticeCell_continuous (i : ℤ) : Continuous (latticeCell i) := by
  unfold latticeCell blendWeight
  fun_prop

/-- Each cellwise derivative is continuous. -/
theorem latticeCellD_continuous (i : ℤ) : Continuous (latticeCellD i) := by
  unfold latticeCellD
  fun_prop

/-- The cell polynomial has the cellwise derivative everywhere. -/
theorem latticeCell_hasDerivAt (i : ℤ) (t : ℝ) :
    HasDerivAt (latticeCell i) (latticeCellD i t) t := by
  have hu := blendWeight_hasDerivAt t
  have h1 : HasDerivAt (fun f : ℝ => noise (i : ℝ) * (1 - blendWeight f))
      (noise (i : ℝ) * -(6 * t - 6 * t ^ 2)) t := (hu.const_sub 1).const_mul (noise (i : ℝ))
  have h2 : HasDerivAt (fun f : ℝ => noise ((i : ℝ) + 1) * blendWeight f)
      (noise ((i : ℝ) + 1) * (6 * t - 6 * t ^ 2)) t := hu.const_mul _
  have h3 := h1.add h2
  convert h3 using 1
  unfold latticeCellD
  ring

/-- Consecutive cell polynomials agree at the shared lattice point: the
left cell at local coordinate 1 equals the right cell at 0, both being the
base noise at the shared lattice point. -/
theorem latticeCell_match (i : ℤ) : latticeCell i 1 = latticeCell (i + 1) 0 := by
  unfold latticeCell blendWeight
  push_cast
  ring

/-- The cellwise derivative vanishes at the left end of every cell. -/
theorem latticeCellD_zero (i : ℤ) : latticeCellD i 0 = 0 := by
  unfold latticeCellD
  ring

/-- The cellwise derivative vanishes at the right end of every cell. -/
theorem latticeCellD_one (i : ℤ) : latticeCellD i 1 = 0 := by
  unfold latticeCellD
  ring

/-- smoothNoise is the glued family of cell polynomials. -/
theorem smoothNoise_eq_cell (x : ℝ) :
    smoothNoise x = latticeCell ⌊x⌋ (Int.fract x) := rfl

/-- C9: smoothness of the interpolated noise at lattice boundaries.  The
cubic blend weight satisfies u(0) = 0 and u(1) = 1 and its derivative
vanishes at both cell endpoints; the value interpolated in the cell ending
at lattice point i tends to noise(i) as the local coordinate tends to 1,
and smoothNoise agrees with noise at every lattice point; smoothNoise is
continuous on the whole line and differentiable everywhere with derivative
smoothNoiseD, itself continuous - in particular the first derivative is
continuous across every lattice boundary. -/
theorem smoothNoise_smooth_at_lattice :
    (blendWeight 0 = 0 ∧ blendWeight 1 = 1) ∧
    (HasDerivAt blendWeight 0 0 ∧ HasDerivAt blendWeight 0 1) ∧
    (∀ i : ℤ, smoothNoise (i : ℝ) = noise (i : ℝ)) ∧
    (∀ i : ℤ, Filter.Tendsto (latticeCell (i - 1)) (nhdsWithin 1 (Set.Iio 1))
      (nhds (noise (i : ℝ)))) ∧
    Continuous smoothNoise ∧
    (∀ x : ℝ, HasDerivAt smoothNoise (smoothNoiseD x) x) ∧
    Continuous smoothNoiseD := by
  have hmatchD : ∀ i : ℤ, latticeCellD i 1 = latticeCellD (i + 1) 0 := by
    intro i
    rw [latticeCellD_one, latticeCellD_zero]
  have hcellval : ∀ i : ℤ, latticeCell i 0 = noise (i : ℝ) := by
    intro i
    unfold latticeCell blendWeight
    ring
  refine ⟨⟨by norm_num [blendWeight], by norm_num [blendWeight]⟩, ⟨?_, ?_⟩, ?_, ?_, ?_, ?_, ?_⟩
  · have h := blendWeight_hasDerivAt 0
    norm_num at h
    exact h
  · have h := blendWeight_hasDerivAt 1
    norm_num at h
    exact h
  · intro i
    rw [smoothNoise_eq_cell, Int.floor_intCast, Int.fract_intCast]
    exact hcellval i
  · intro i
    have hv : latticeCell (i - 1) 1 = noise (i : ℝ) := by
      rw [latticeCell_match (i - 1)]
      rw [show i - 1 + 1 = i by ring]
      exact hcellval i
    have hc := (latticeCell_continuous (i - 1)).tendsto 1
    rw [hv] at hc
    exact hc.mono_left nhdsWithin_le_nhds
  · exact glue_continuous latticeCell latticeCell_continuous latticeCell_match
  · intro x
    exact glue_hasDerivAt latticeCell latticeCellD latticeCell_hasDerivAt
      latticeCell_match latticeCellD_zero latticeCellD_one x
  · exact glue_continuous latticeCellD latticeCellD_continuous hmatchD
